/-
Verification of the segmentation and prompt-budgeting core of
legend-qa-extractor against its specification.

The Lean definitions below are a shallow embedding of the Python sources:
  * `src/src/core/text_processor.py`  (TextProcessor)
  * `src/src/core/qa_extractor.py`    (QAExtractor)
  * `src/src/processor.py`            (QAExtractionProcessor)
Strings are Lean `String`s (sequences of unicode code points, matching
Python's `str`); `len` is `String.length`; machine integers are `Nat`/`Int`
with Python's truncating conversions made explicit.
-/
import Mathlib

set_option maxHeartbeats 1000000

/-! ## Python primitives

`pyIsSpace` is the set of code points Python's `str.isspace` (and hence
`str.strip()` with no argument and the regex class `\s`) accepts. -/

def pyIsSpace (c : Char) : Bool :=
  c.toNat ∈ [9, 10, 11, 12, 13, 28, 29, 30, 31, 32, 133, 160,
    0x1680, 0x2000, 0x2001, 0x2002, 0x2003, 0x2004, 0x2005, 0x2006, 0x2007,
    0x2008, 0x2009, 0x200A, 0x2028, 0x2029, 0x202F, 0x205F, 0x3000]

/-- Python `s.strip()`: drop leading and trailing whitespace. -/
def pyStrip (s : String) : String :=
  ⟨((s.data.dropWhile pyIsSpace).reverse.dropWhile pyIsSpace).reverse⟩

/-- Python `text.split('\n\n')` on the underlying code points: split on every
non-overlapping occurrence of the two-character separator, scanning left to
right (structural recursion, so that concrete inputs evaluate). -/
def splitNN : List Char → List (List Char)
  | [] => [[]]
  | '\n' :: '\n' :: rest => [] :: splitNN rest
  | c :: rest =>
    match splitNN rest with
    | [] => [[c]]
    | piece :: pieces => (c :: piece) :: pieces

/-- Python `s.split('\n\n')` as a `String` operation. -/
def pySplitNN (s : String) : List String := (splitNN s.data).map (⟨·⟩)

/-! ## TextProcessor.create_hybrid_blocks (text_processor.py lines 68-110)

    paragraphs = [p.strip() for p in text.split('\n\n') if p.strip()]
-/

def splitParagraphs (text : String) : List String :=
  ((pySplitNN text).map pyStrip).filter (fun p => p ≠ "")

/-- The inner accumulation loop of `create_hybrid_blocks`: starting from
accumulated character count `cur` (the sum of the lengths of the paragraphs
already in the running block, separators not counted — the Python loop adds
`len(para)` only), consume paragraphs into the running block.  Returns
(paragraphs of the closed block, remaining paragraphs).

    while i < len(paragraphs):
        para = paragraphs[i]
        if current_len > 0 and current_len + len(para) > max_size: break
        block_paras.append(para); current_len += len(para); i += 1
        if current_len >= max_size: break
-/
def takeBlock (maxSize : Nat) : Nat → List String → List String × List String
  | _, [] => ([], [])
  | cur, p :: ps =>
    if 0 < cur ∧ maxSize < cur + p.length then ([], p :: ps)
    else if maxSize ≤ cur + p.length then ([p], ps)
    else
      let r := takeBlock maxSize (cur + p.length) ps
      (p :: r.1, r.2)

theorem takeBlock_append (maxSize : Nat) :
    ∀ (l : List String) (cur : Nat),
      (takeBlock maxSize cur l).1 ++ (takeBlock maxSize cur l).2 = l := by
  intro l
  induction l with
  | nil => intro cur; simp [takeBlock]
  | cons p ps ih =>
    intro cur
    simp only [takeBlock]
    split
    · simp
    · split
      · simp
      · simpa using ih (cur + p.length)

theorem takeBlock_snd_length (maxSize : Nat) :
    ∀ (l : List String) (cur : Nat),
      (takeBlock maxSize cur l).2.length ≤ l.length := by
  intro l
  induction l with
  | nil => intro cur; simp [takeBlock]
  | cons p ps ih =>
    intro cur
    simp only [takeBlock]
    split
    · simp
    · split
      · simp
      · exact le_trans (ih (cur + p.length)) (Nat.le_succ _)

theorem takeBlock_zero_snd_lt (maxSize : Nat) (p : String) (ps : List String) :
    (takeBlock maxSize 0 (p :: ps)).2.length < (p :: ps).length := by
  simp only [takeBlock]
  have h0 : ¬ (0 < 0 ∧ maxSize < 0 + p.length) := by simp
  rw [if_neg h0]
  split
  · simp
  · exact Nat.lt_succ_of_le (takeBlock_snd_length maxSize ps (0 + p.length))

/-- The outer loop of `create_hybrid_blocks`, with explicit fuel (the fuel is
only a termination device: `buildBlocks` supplies `l.length`, which always
suffices because `takeBlock` consumes at least one paragraph per round). -/
def buildBlocksF (maxSize : Nat) : Nat → List String → List (List String)
  | _, [] => []
  | 0, _ :: _ => []
  | fuel + 1, p :: ps =>
    let r := takeBlock maxSize 0 (p :: ps)
    r.1 :: buildBlocksF maxSize fuel r.2

/-- The outer loop of `create_hybrid_blocks`: repeatedly close blocks until
no paragraph remains.  Each element of the result is the paragraph list of
one block formed by the greedy accumulation loop (before the `min_size`
filter is applied). -/
def buildBlocks (maxSize : Nat) (l : List String) : List (List String) :=
  buildBlocksF maxSize l.length l

/-- Python `"\n\n".join(paras)`. -/
def blockText : List String → String
  | [] => ""
  | [p] => p
  | p :: q :: ps => p ++ "\n\n" ++ blockText (q :: ps)

/-- Sum of the paragraph lengths of a block (the quantity the Python loop
tracks in `current_len`; it does not include the `"\n\n"` joiners). -/
def sumLens (g : List String) : Nat := (g.map String.length).sum

/-- `TextProcessor.create_hybrid_blocks(text, max_size, min_size)`. -/
def create_hybrid_blocks (text : String) (maxSize minSize : Nat) : List String :=
  if text = "" then []
  else ((buildBlocks maxSize (splitParagraphs text)).map blockText).filter
    (fun b => minSize ≤ b.length)

/-! ### Structural lemmas about the block builder -/

theorem str_length_pos {p : String} (h : p ≠ "") : 0 < p.length := by
  cases p with
  | mk d =>
    cases d with
    | nil => exact absurd rfl h
    | cons c cs => simp [String.length]

theorem buildBlocksF_flatten (maxSize : Nat) :
    ∀ (fuel : Nat) (l : List String), l.length ≤ fuel →
      (buildBlocksF maxSize fuel l).flatten = l := by
  intro fuel
  induction fuel with
  | zero =>
    intro l h
    have : l = [] := List.length_eq_zero.mp (Nat.le_zero.mp h)
    subst this
    simp [buildBlocksF]
  | succ fuel ih =>
    intro l h
    match l with
    | [] => simp [buildBlocksF]
    | p :: ps =>
      simp only [buildBlocksF, List.flatten_cons]
      rw [ih _ (by
        have := takeBlock_zero_snd_lt maxSize p ps
        omega)]
      exact takeBlock_append maxSize (p :: ps) 0

theorem buildBlocks_flatten (maxSize : Nat) (l : List String) :
    (buildBlocks maxSize l).flatten = l :=
  buildBlocksF_flatten maxSize l.length l le_rfl

theorem takeBlock_zero_fst_ne_nil (maxSize : Nat) (p : String) (ps : List String) :
    (takeBlock maxSize 0 (p :: ps)).1 ≠ [] := by
  simp only [takeBlock]
  have h0 : ¬ (0 < 0 ∧ maxSize < 0 + p.length) := by simp
  rw [if_neg h0]
  split <;> simp

/-- The accumulation loop never lets the tracked character count pass
`maxSize` except in the degenerate case of a first paragraph that already
reaches it (in which case the block is that single paragraph). -/
theorem takeBlock_sum (maxSize : Nat) :
    ∀ (l : List String) (cur : Nat), (∀ p ∈ l, p ≠ "") →
      (cur = 0 ∨ cur < maxSize) →
      cur + sumLens (takeBlock maxSize cur l).1 ≤ maxSize ∨
        (cur = 0 ∧ (takeBlock maxSize cur l).1.length ≤ 1) := by
  intro l
  induction l with
  | nil =>
    intro cur _ hcur
    left
    rcases hcur with h | h
    · simp [takeBlock, sumLens, h]
    · simp only [takeBlock, sumLens, List.map_nil, List.sum_nil, Nat.add_zero]
      exact le_of_lt h
  | cons p ps ih =>
    intro cur hne hcur
    simp only [takeBlock]
    split
    · rename_i h1
      rcases hcur with h | h
      · exact absurd h1.1 (by omega)
      · left
        simp only [sumLens, List.map_nil, List.sum_nil, Nat.add_zero]
        exact le_of_lt h
    · rename_i h1
      split
      · rename_i h2
        by_cases hc0 : cur = 0
        · right
          exact ⟨hc0, by simp⟩
        · left
          have hlt : ¬ (maxSize < cur + p.length) :=
            fun hmc => h1 ⟨Nat.pos_of_ne_zero hc0, hmc⟩
          simp only [sumLens, List.map_cons, List.map_nil, List.sum_cons,
            List.sum_nil, Nat.add_zero]
          omega
      · rename_i h2
        have hp : p ≠ "" := hne p (by simp)
        have hplen : 0 < p.length := str_length_pos hp
        have hcur' : cur + p.length = 0 ∨ cur + p.length < maxSize := by
          right; omega
        have := ih (cur + p.length) (fun q hq => hne q (by simp [hq])) hcur'
        rcases this with hsum | ⟨hz, _⟩
        · left
          simp only [sumLens, List.map_cons, List.sum_cons] at hsum ⊢
          omega
        · omega

/-- Every block group of `buildBlocks` is non-empty and its paragraphs sum to
at most `maxSize` unless it is a single (possibly oversized) paragraph. -/
theorem buildBlocksF_groups (maxSize : Nat) :
    ∀ (fuel : Nat) (l : List String), l.length ≤ fuel → (∀ p ∈ l, p ≠ "") →
      ∀ g ∈ buildBlocksF maxSize fuel l,
        g ≠ [] ∧ (g.length = 1 ∨ sumLens g ≤ maxSize) := by
  intro fuel
  induction fuel with
  | zero =>
    intro l h _ g hg
    have : l = [] := List.length_eq_zero.mp (Nat.le_zero.mp h)
    subst this
    simp [buildBlocksF] at hg
  | succ fuel ih =>
    intro l h hne g hg
    match l with
    | [] => simp [buildBlocksF] at hg
    | p :: ps =>
      simp only [buildBlocksF, List.mem_cons] at hg
      rcases hg with hg | hg
      · subst hg
        refine ⟨takeBlock_zero_fst_ne_nil maxSize p ps, ?_⟩
        have := takeBlock_sum maxSize (p :: ps) 0 hne (Or.inl rfl)
        rcases this with hsum | ⟨_, hlen⟩
        · right; simpa using hsum
        · left
          have hne' := takeBlock_zero_fst_ne_nil maxSize p ps
          have : 0 < (takeBlock maxSize 0 (p :: ps)).1.length :=
            List.length_pos.mpr hne'
          omega
      · have hsub : ∀ q ∈ (takeBlock maxSize 0 (p :: ps)).2, q ∈ p :: ps := by
          intro q hq
          have := takeBlock_append maxSize (p :: ps) 0
          rw [← this]
          exact List.mem_append_right _ hq
        refine ih _ ?_ (fun q hq => hne q (hsub q hq)) g hg
        have := takeBlock_zero_snd_lt maxSize p ps
        omega

theorem buildBlocks_groups (maxSize : Nat) (l : List String)
    (hne : ∀ p ∈ l, p ≠ "") :
    ∀ g ∈ buildBlocks maxSize l, g ≠ [] ∧ (g.length = 1 ∨ sumLens g ≤ maxSize) :=
  buildBlocksF_groups maxSize l.length l le_rfl hne

theorem splitParagraphs_ne_empty (text : String) :
    ∀ p ∈ splitParagraphs text, p ≠ "" := by
  intro p hp
  simp only [splitParagraphs, List.mem_filter, decide_eq_true_eq] at hp
  exact hp.2

theorem blockText_length :
    ∀ (g : List String), g ≠ [] →
      (blockText g).length + 2 = sumLens g + 2 * g.length := by
  intro g
  induction g with
  | nil => intro h; exact absurd rfl h
  | cons p ps ih =>
    intro _
    match ps with
    | [] => simp [blockText, sumLens]
    | q :: qs =>
      have := ih (by simp)
      simp only [blockText, String.length_append, sumLens, List.map_cons,
        List.sum_cons, List.length_cons] at this ⊢
      have h2 : ("\n\n" : String).length = 2 := by decide
      rw [h2]
      omega

theorem splitParagraphs_empty : splitParagraphs "" = [] := by decide

theorem create_hybrid_blocks_eq_filter (text : String) (maxSize minSize : Nat) :
    create_hybrid_blocks text maxSize minSize =
      ((buildBlocks maxSize (splitParagraphs text)).filter
        (fun g => decide (minSize ≤ (blockText g).length))).map blockText := by
  by_cases h : text = ""
  · subst h
    rfl
  · simp only [create_hybrid_blocks, if_neg h]
    exact List.filter_map blockText _

/-! ### Claim C1: partition invariant and paragraph atomicity -/

/-- C1.  For every input text and bounds `min_size ≤ max_size`, the groups
formed by the greedy loop partition the paragraph sequence obtained from
splitting on `"\n\n"` and dropping empty paragraphs (their concatenation in
order is exactly that sequence), and the returned blocks are precisely the
joins of the groups whose joined content reaches `min_size` — so
concatenating the returned blocks' paragraphs reproduces the paragraph
sequence minus the paragraphs of dropped blocks, each paragraph lying wholly
within one block. -/
theorem create_hybrid_blocks_partition (text : String) (maxSize minSize : Nat)
    (h : minSize ≤ maxSize) :
    (buildBlocks maxSize (splitParagraphs text)).flatten = splitParagraphs text ∧
    create_hybrid_blocks text maxSize minSize =
      ((buildBlocks maxSize (splitParagraphs text)).filter
        (fun g => decide (minSize ≤ (blockText g).length))).map blockText ∧
    (∀ b ∈ create_hybrid_blocks text maxSize minSize,
      ∃ g ∈ buildBlocks maxSize (splitParagraphs text), b = blockText g) := by
  refine ⟨buildBlocks_flatten maxSize _, create_hybrid_blocks_eq_filter text maxSize minSize, ?_⟩
  intro b hb
  rw [create_hybrid_blocks_eq_filter] at hb
  rcases List.mem_map.mp hb with ⟨g, hg, rfl⟩
  exact ⟨g, List.mem_of_mem_filter hg, rfl⟩

/-- Witness for C1 at a concrete input. -/
theorem create_hybrid_blocks_partition_witness :
    (1 : Nat) ≤ 10 ∧
    ((buildBlocks 10 (splitParagraphs "aaaaa\n\nbbbbb")).flatten =
        splitParagraphs "aaaaa\n\nbbbbb" ∧
      create_hybrid_blocks "aaaaa\n\nbbbbb" 10 1 =
        ((buildBlocks 10 (splitParagraphs "aaaaa\n\nbbbbb")).filter
          (fun g => decide (1 ≤ (blockText g).length))).map blockText ∧
      (∀ b ∈ create_hybrid_blocks "aaaaa\n\nbbbbb" 10 1,
        ∃ g ∈ buildBlocks 10 (splitParagraphs "aaaaa\n\nbbbbb"), b = blockText g)) :=
  ⟨by decide, create_hybrid_blocks_partition "aaaaa\n\nbbbbb" 10 1 (by decide)⟩

/-! ### Claim C2: size bound (corrected)

The Python loop tracks `current_len`, the sum of the paragraph lengths of
the running block, and compares *that* against `max_size`; the block's
content is the paragraphs joined with `"\n\n"`, whose length additionally
counts two characters per joiner.  A returned multi-paragraph block can
therefore exceed `max_size` by up to `2 * (k - 1)` characters. -/

/-- C2 counterexample.  With `max_size = 10`, `min_size = 1` and two
paragraphs of five characters each, the single returned block consists of
two paragraphs (so it is not a lone oversized paragraph) and its content is
12 characters long, exceeding `max_size`. -/
theorem create_hybrid_blocks_size_cex :
    (1 : Nat) ≤ 10 ∧
    splitParagraphs "aaaaa\n\nbbbbb" = ["aaaaa", "bbbbb"] ∧
    buildBlocks 10 (splitParagraphs "aaaaa\n\nbbbbb") = [["aaaaa", "bbbbb"]] ∧
    create_hybrid_blocks "aaaaa\n\nbbbbb" 10 1 = ["aaaaa\n\nbbbbb"] ∧
    ¬ (["aaaaa", "bbbbb"] : List String).length = 1 ∧
    ¬ ("aaaaa\n\nbbbbb" : String).length ≤ 10 := by
  refine ⟨by decide, by decide, by decide, by decide, by decide, by decide⟩

/-- C2 (amended).  Every returned block is the join of a non-empty group of
consecutive paragraphs; unless that group is a single (possibly oversized)
paragraph, the *sum of its paragraph lengths* is at most `max_size`, so its
joined content length satisfies `len(content) ≤ max_size + 2*(k-1)` where
`k` is the number of paragraphs (the `"\n\n"` joiners are not counted by the
loop's size check). -/
theorem create_hybrid_blocks_size_bound (text : String) (maxSize minSize : Nat)
    (h : minSize ≤ maxSize) :
    ∀ b ∈ create_hybrid_blocks text maxSize minSize,
      ∃ g, g ∈ buildBlocks maxSize (splitParagraphs text) ∧ b = blockText g ∧
        g ≠ [] ∧
        (g.length = 1 ∨
          (sumLens g ≤ maxSize ∧ b.length + 2 ≤ maxSize + 2 * g.length)) := by
  intro b hb
  rw [create_hybrid_blocks_eq_filter] at hb
  rcases List.mem_map.mp hb with ⟨g, hg, rfl⟩
  have hgmem := List.mem_of_mem_filter hg
  have hprops := buildBlocks_groups maxSize (splitParagraphs text)
    (splitParagraphs_ne_empty text) g hgmem
  refine ⟨g, hgmem, rfl, hprops.1, ?_⟩
  rcases hprops.2 with h1 | hsum
  · exact Or.inl h1
  · refine Or.inr ⟨hsum, ?_⟩
    have := blockText_length g hprops.1
    omega

/-- Witness for C2's amended statement at a concrete input. -/
theorem create_hybrid_blocks_size_bound_witness :
    (1 : Nat) ≤ 10 ∧
    (∀ b ∈ create_hybrid_blocks "aaaaa\n\nbbbbb" 10 1,
      ∃ g, g ∈ buildBlocks 10 (splitParagraphs "aaaaa\n\nbbbbb") ∧ b = blockText g ∧
        g ≠ [] ∧
        (g.length = 1 ∨ (sumLens g ≤ 10 ∧ b.length + 2 ≤ 10 + 2 * g.length))) :=
  ⟨by decide, create_hybrid_blocks_size_bound "aaaaa\n\nbbbbb" 10 1 (by decide)⟩

/-! ### Claim C3: only the trailing block may be dropped (corrected)

The `min_size` filter in the source is applied to *every* block the greedy
loop forms, wherever it occurs: a non-final block is dropped whenever a long
following paragraph forces the running block to close before it reaches
`min_size`. -/

/-- C3 counterexample.  With `max_size = min_size = 10` and paragraphs
`"aaa"` and a 10-character one, the greedy loop forms two blocks; the first
(non-final) block `"aaa"` is dropped for being under `min_size` while the
final block is returned — contradicting the claim that only the trailing
block may be dropped. -/
theorem create_hybrid_blocks_drop_cex :
    (10 : Nat) ≤ 10 ∧
    buildBlocks 10 (splitParagraphs "aaa\n\nbbbbbbbbbb") = [["aaa"], ["bbbbbbbbbb"]] ∧
    create_hybrid_blocks "aaa\n\nbbbbbbbbbb" 10 10 = ["bbbbbbbbbb"] ∧
    blockText ["aaa"] ∉ create_hybrid_blocks "aaa\n\nbbbbbbbbbb" 10 10 := by
  refine ⟨by decide, by decide, by decide, by decide⟩

/-- C3 (amended).  A block formed by the greedy accumulation loop is
retained exactly when its joined content reaches `min_size`, regardless of
its position in the document: non-final blocks below `min_size` are dropped
too. -/
theorem create_hybrid_blocks_drop_rule (text : String) (maxSize minSize : Nat)
    (h : minSize ≤ maxSize) :
    ∀ g ∈ buildBlocks maxSize (splitParagraphs text),
      (minSize ≤ (blockText g).length ↔
        blockText g ∈ create_hybrid_blocks text maxSize minSize) := by
  intro g hg
  rw [create_hybrid_blocks_eq_filter]
  constructor
  · intro hlen
    exact List.mem_map_of_mem blockText (List.mem_filter.mpr ⟨hg, by simpa using hlen⟩)
  · intro hmem
    rcases List.mem_map.mp hmem with ⟨g', hg', heq⟩
    have := (List.mem_filter.mp hg').2
    simp only [decide_eq_true_eq] at this
    rw [heq] at this
    exact this

/-- Witness for C3's amended statement at a concrete input. -/
theorem create_hybrid_blocks_drop_rule_witness :
    (10 : Nat) ≤ 10 ∧
    ["bbbbbbbbbb"] ∈ buildBlocks 10 (splitParagraphs "aaa\n\nbbbbbbbbbb") ∧
    (10 ≤ (blockText ["bbbbbbbbbb"]).length ↔
      blockText ["bbbbbbbbbb"] ∈ create_hybrid_blocks "aaa\n\nbbbbbbbbbb" 10 10) :=
  ⟨by decide, by decide,
    create_hybrid_blocks_drop_rule "aaa\n\nbbbbbbbbbb" 10 10 (by decide)
      ["bbbbbbbbbb"] (by decide)⟩

/-! ### Claim C4: minimum bound and empty input -/

/-- C4.  Every returned block's content has length at least `min_size`
(shorter blocks are discarded, never padded), and empty input yields the
empty block sequence. -/
theorem create_hybrid_blocks_min_bound (text : String) (maxSize minSize : Nat)
    (h : minSize ≤ maxSize) :
    (∀ b ∈ create_hybrid_blocks text maxSize minSize, minSize ≤ b.length) ∧
    create_hybrid_blocks "" maxSize minSize = [] := by
  constructor
  · intro b hb
    by_cases ht : text = ""
    · subst ht
      simp [create_hybrid_blocks] at hb
    · simp only [create_hybrid_blocks, if_neg ht] at hb
      have := (List.mem_filter.mp hb).2
      simpa using this
  · rfl

/-- Witness for C4 at a concrete input. -/
theorem create_hybrid_blocks_min_bound_witness :
    (10 : Nat) ≤ 10 ∧
    ((∀ b ∈ create_hybrid_blocks "aaa\n\nbbbbbbbbbb" 10 10, 10 ≤ b.length) ∧
      create_hybrid_blocks "" 10 10 = []) :=
  ⟨by decide, create_hybrid_blocks_min_bound "aaa\n\nbbbbbbbbbb" 10 10 (by decide)⟩

/-! ## TextProcessor.block_has_qa (text_processor.py lines 112-157)

Each regex in the source is either a literal marker followed by the
character class `[：:]` (full-width or ASCII colon) or a plain literal, and
`re.search` just asks whether the pattern occurs anywhere in the text; so
the patterns are modelled as substring tests. -/

/-- `beginsWith sub l`: `sub` is a prefix of `l`. -/
def beginsWith : List Char → List Char → Bool
  | [], _ => true
  | _ :: _, [] => false
  | a :: as, b :: bs => (a == b) && beginsWith as bs

/-- `occursIn sub l`: `sub` occurs contiguously somewhere in `l`
(Python `re.search` for a literal pattern). -/
def occursIn (sub : List Char) : List Char → Bool
  | [] => beginsWith sub []
  | c :: rest => beginsWith sub (c :: rest) || occursIn sub rest

theorem beginsWith_iff (sub : List Char) :
    ∀ l : List Char, beginsWith sub l = true ↔ sub <+: l := by
  induction sub with
  | nil => intro l; simp [beginsWith]
  | cons a as ih =>
    intro l
    match l with
    | [] => simp [beginsWith]
    | b :: bs =>
      simp only [beginsWith, Bool.and_eq_true, beq_iff_eq, List.cons_prefix_cons]
      exact and_congr Iff.rfl (ih bs)

theorem occursIn_iff (sub : List Char) :
    ∀ l : List Char, occursIn sub l = true ↔ sub <:+: l := by
  intro l
  induction l with
  | nil =>
    simp only [occursIn, beginsWith_iff, List.prefix_nil, List.infix_nil]
  | cons c rest ih =>
    simp only [occursIn, Bool.or_eq_true, beginsWith_iff, ih,
      List.infix_cons_iff]

/-- One pattern of `block_has_qa`: a marker followed by `[：:]`, or a plain
literal. -/
inductive QaPat where
  | colon (m : String)
  | plain (m : String)

/-- `re.search(pattern, text)` for the two pattern shapes. -/
def searchPat (p : QaPat) (t : String) : Bool :=
  match p with
  | .colon m => occursIn (m ++ "：").data t.data || occursIn (m ++ ":").data t.data
  | .plain m => occursIn m.data t.data

/-- The same match condition, stated as a proposition about substrings. -/
def patMatches (p : QaPat) (t : String) : Prop :=
  match p with
  | .colon m => (m ++ "：").data <:+: t.data ∨ (m ++ ":").data <:+: t.data
  | .plain m => m.data <:+: t.data

theorem searchPat_iff (p : QaPat) (t : String) :
    searchPat p t = true ↔ patMatches p t := by
  cases p with
  | colon m => simp [searchPat, patMatches, occursIn_iff]
  | plain m => simp [searchPat, patMatches, occursIn_iff]

def direct_question_patterns : List QaPat :=
  [.colon "网友", .colon "问", .colon "问题", .colon "提问", .colon "主持人",
   .colon "观众", .colon "Q"]

def indirect_question_patterns : List QaPat :=
  [.colon "文章引用", .colon "引用", .plain "有人说", .plain "有人认为",
   .plain "有观点认为", .plain "据说", .plain "听说"]

def answer_patterns : List QaPat :=
  [.colon "段永平", .colon "段", .colon "大道"]

/-- `TextProcessor.block_has_qa(text)`. -/
def block_has_qa (text : String) : Bool :=
  if text = "" then false
  else
    let has_direct_question := direct_question_patterns.any (searchPat · text)
    let has_indirect_question := indirect_question_patterns.any (searchPat · text)
    let has_answer := answer_patterns.any (searchPat · text)
    has_answer && (has_direct_question || has_indirect_question)

theorem block_has_qa_eq_body (t : String) :
    block_has_qa t =
      (answer_patterns.any (searchPat · t) &&
        (direct_question_patterns.any (searchPat · t) ||
          indirect_question_patterns.any (searchPat · t))) := by
  by_cases h : t = ""
  · subst h
    decide
  · simp [block_has_qa, if_neg h]

/-! ### Claim C6: QA detection rule -/

/-- C6.  `block_has_qa(text)` is true exactly when some answer-marker
pattern (段永平/段/大道 followed by a colon) occurs in the text and some
question-marker pattern of either tier occurs; in particular a block with
"问：…" followed by "段永平：…" is flagged and a block with only
"段永平：…" is not. -/
theorem block_has_qa_characterization :
    (∀ t : String,
      block_has_qa t = true ↔
        ((∃ p ∈ answer_patterns, patMatches p t) ∧
          ((∃ p ∈ direct_question_patterns, patMatches p t) ∨
            (∃ p ∈ indirect_question_patterns, patMatches p t)))) ∧
    block_has_qa "问：什么是投资？\n段永平：投资就是买公司。" = true ∧
    block_has_qa "段永平：投资就是买公司。" = false := by
  refine ⟨?_, by decide, by decide⟩
  intro t
  rw [block_has_qa_eq_body]
  simp only [Bool.and_eq_true, Bool.or_eq_true, List.any_eq_true, searchPat_iff]

/-! ## SmartBlockProcessor QA-aware size policy (claim C5)

`src/src/core/smart_block_processor.py` is imported by `src/src/processor.py`
(lines 9, 63-72) but the module itself is not among the repository's source
files; only its constructor call (which passes `max_block_size`,
`min_block_size` and `qa_allowance_ratio`) and the spec describe it. -/

/-- Modelled from the spec: the effective size ceiling of the
`SmartBlockProcessor` QA-aware size policy (its module,
src/src/core/smart_block_processor.py, is missing from the sources).  Per
§4.2, a block flagged as QA-bearing is permitted to grow up to
`max_size × qa_allowance_ratio` before being force-closed; a non-QA block's
ceiling is `max_size` itself.  The ratio (default 1.2) is modelled as a
rational number. -/
def qaEffectiveCeiling (maxSize : Nat) (ratio : ℚ) (hasQa : Bool) : ℚ :=
  if hasQa then (maxSize : ℚ) * ratio else (maxSize : ℚ)

/-- Modelled from the spec: a block of `len` characters is force-closed
exactly when it has grown beyond its effective ceiling. -/
def blockForceClosed (maxSize : Nat) (ratio : ℚ) (hasQa : Bool) (len : Nat) : Bool :=
  decide (qaEffectiveCeiling maxSize ratio hasQa < (len : ℚ))

/-! ### Claim C5: QA allowance before force-closing -/

/-- C5.  A QA-flagged block may grow beyond `max_size` up to
`max_size * qa_allowance_ratio` before being force-closed; with ratio 1.2
and `max_size = 1000`, a QA-flagged block of 1150 characters is accepted
while one of 1201 characters is force-closed. -/
theorem qa_allowance_policy :
    (∀ (maxSize len : Nat) (ratio : ℚ),
      blockForceClosed maxSize ratio true len = false ↔
        (len : ℚ) ≤ (maxSize : ℚ) * ratio) ∧
    blockForceClosed 1000 (6/5 : ℚ) true 1150 = false ∧
    blockForceClosed 1000 (6/5 : ℚ) true 1201 = true ∧
    ((1000 : ℚ) * (6/5 : ℚ)) = 1200 := by
  refine ⟨?_, by norm_num [blockForceClosed, qaEffectiveCeiling],
    by norm_num [blockForceClosed, qaEffectiveCeiling], by norm_num⟩
  intro maxSize len ratio
  simp [blockForceClosed, qaEffectiveCeiling, not_lt]

/-! ## QAExtractor (qa_extractor.py)

The two prompt templates, verbatim from the constructor (lines 18-76). -/

/-- `self.compact_prompt` (qa_extractor.py line 19). -/
def compact_prompt : String :=
  "你是中文问答对提取专家，从原文提取段永平的所有真实问答对。\n\n【核心原则】必须有真实外部提问（网友/主持人/引用观点）引发段永平回应，每个问题对应一个完整回答（含连续补充），禁止提取修辞性自问句。\n\n【提取流程】找到真实外部问题 → 匹配完整段永平回答 → 严格验证配对\n\n【严禁】段永平阐述中的\"什么是XX？\"\"很难吗？\"等修辞问句、问答内容相同/颠倒、无外部引发就输出\n\n输出格式：JSON数组 [\x7b\"question\": \"外部问题\", \"answer\": \"段永平完整回答\"\x7d]\n\n原文："

/-- `self.full_prompt` (qa_extractor.py line 32). -/
def full_prompt : String :=
  "你是专业中文问答对提取专家，从原文提取段永平的所有有效问答对。\n\n🎯 【核心原则】\n• 必须存在真实外部提问（网友、主持人、引用观点等）引发段永平回应\n• 每个外部问题只对应一个完整合并回答（包含所有后续补充片段）\n• 绝对禁止提取段永平阐述中的修辞性自问句\n\n📋 【提取流程】\n1️⃣ **问题识别**：明确标识（网友：、问：）或引用观点（有人说、文章引用）\n2️⃣ **回答匹配**：段永平的完整连续回应（含所有相关补充）\n3️⃣ **配对验证**：问题与回答逻辑对应，无内容重复/颠倒\n\n🔧 【边界处理】\n• **同一问题的离散回答**：合并为一个完整answer\n• **新问题判断**：出现新提问者或话题实质转换\n• **修辞性问句**：段永平论述中的\"什么是XX？\"\"很难吗？\"等不提取\n\n✅ **核心示例**\n```\n网友：什么是stop doing list？\n段永平：所谓要做对的事情实际上是通过不做不对的事情来实现的。\n\n有人认为价值投资已经过时了。\n我不这么认为。价值投资永远不会过时，因为它的本质是买优秀的公司。\n\n主持人：投资中最难的是什么？\n段永平：最难的是克服恐惧和贪婪。这是人性。\n主持人：还有吗？\n段永平：还有就是坚持不懂不做。只在自己的能力圈内活动。\n```\n\n正确输出：\n```json\n[\n  \x7b\"question\": \"什么是stop doing list？\", \"answer\": \"所谓要做对的事情实际上是通过不做不对的事情来实现的。\"\x7d,\n  \x7b\"question\": \"有人认为价值投资已经过时了。\", \"answer\": \"我不这么认为。价值投资永远不会过时，因为它的本质是买优秀的公司。\"\x7d,\n  \x7b\"question\": \"投资中最难的是什么？\", \"answer\": \"最难的是克服恐惧和贪婪。这是人性。还有就是坚持不懂不做。只在自己的能力圈内活动。\"\x7d\n]\n```\n\n❌ **集中错误防范**\n• 把段永平的修辞问句当外部问题（如\"价值投资的核心是什么？就是买优秀公司\"中的问句）\n• 问题和答案内容相同或逻辑颠倒\n• 拆分属于同一问题的连续回答片段\n• 无外部问题引发就输出问答对\n\n🔍 请仔细分析以下原文，提取所有符合条件的问答对：\n"

/-- A CJK ideograph as counted by the source's regex `[一-龥]`. -/
def isCJK (c : Char) : Bool := 0x4E00 ≤ c.toNat && c.toNat ≤ 0x9FA5

/-- `QAExtractor.estimate_token_count` (qa_extractor.py lines 77-82):
`int(chinese_chars * 1.5 + other_chars * 0.75)`.  Both products and their
sum are exact dyadic floating-point values, so the truncation equals the
integer `(6*chinese + 3*other) / 4` (floor division of non-negatives). -/
def estimate_token_count (t : String) : Nat :=
  let chinese_chars := (t.data.filter isCJK).length
  let other_chars := t.length - chinese_chars
  (6 * chinese_chars + 3 * other_chars) / 4

/-- Python `s[:n]` for `0 ≤ n`. -/
def charTake (s : String) (n : Nat) : String := ⟨s.data.take n⟩

/-- Python `s[:a]` for an arbitrary integer `a` (a negative bound counts
from the end of the string, clamping at the start). -/
def pySlice (s : String) (a : ℤ) : String :=
  if 0 ≤ a then charTake s a.toNat
  else charTake s (s.length - (-a).toNat)

/-- The context section built at the top of `create_prompt`
(qa_extractor.py lines 94-100): a sliding-context header with the context
truncated to 200 characters, then a topic line for the anchor. -/
def contextSection (sliding_context block_anchor : String) : String :=
  (if sliding_context ≠ "" then
      "\n\n上下文：" ++ charTake sliding_context 200 ++ "...\n"
    else "") ++
  (if block_anchor ≠ "" then "\n主题：" ++ block_anchor ++ "\n" else "")

/-- The paragraph-level pass of `_smart_truncate_text` (lines 148-155):
note the Python expression `result += para + "\n\n" if result else para`
appends a *trailing* separator once `result` is non-empty. -/
def paraAccum (maxChars : Nat) : List String → String → String
  | [], acc => acc
  | p :: ps, acc =>
    if acc.length + p.length + 2 ≤ maxChars then
      paraAccum maxChars ps (if acc ≠ "" then acc ++ (p ++ "\n\n") else p)
    else acc

/-- Chinese terminal punctuation of the sentence splitter
`re.split(r'(?<=[。！？；])', text)`. -/
def isSentenceEnd (c : Char) : Bool := c ∈ ['。', '！', '？', '；']

/-- `re.split(r'(?<=[。！？；])', text)`: cut after every terminal
punctuation character; a trailing empty piece appears when the text ends
with one. -/
def sentSplit : List Char → List Char → List (List Char)
  | [], acc => [acc.reverse]
  | c :: rest, acc =>
    if isSentenceEnd c then (c :: acc).reverse :: sentSplit rest []
    else sentSplit rest (c :: acc)

/-- The sentence-level pass of `_smart_truncate_text` (lines 158-164). -/
def sentAccum (maxChars : Nat) : List (List Char) → String → String
  | [], acc => acc
  | s :: ss, acc =>
    if acc.length + s.length ≤ maxChars then
      sentAccum maxChars ss (acc ++ ⟨s⟩)
    else acc

/-- `QAExtractor._smart_truncate_text(text, max_chars)` (lines 142-170).
`max_chars` is a `Nat` because every call site passes a value above 100;
the float comparison `len(result) < max_chars * 0.7` is the exact rational
comparison `10 * len < 7 * max_chars` for all realistic sizes. -/
def smart_truncate (text : String) (maxChars : Nat) : String :=
  if text.length ≤ maxChars then text
  else
    let result := paraAccum maxChars (pySplitNN text) ""
    let result :=
      if 10 * result.length < 7 * maxChars then
        sentAccum maxChars (sentSplit text.data []) ""
      else result
    let result :=
      if maxChars < result.length then charTake result (maxChars - 3) ++ "..."
      else result
    pyStrip result

/-- `QAExtractor.create_prompt(text_block, sliding_context, block_anchor)`
(qa_extractor.py lines 84-140), with `max_prompt_tokens` passed explicitly.
Python's `available_chars = int(available_tokens / 1.5)` truncates the
exact quotient `2*available_tokens/3` toward zero, which is `Int.tdiv`. -/
def create_prompt (maxTok : Nat) (text_block sliding_context block_anchor : String) :
    String :=
  let context_section := contextSection sliding_context block_anchor
  let full_prompt_text := full_prompt ++ context_section ++ "\n\n" ++ text_block
  if estimate_token_count full_prompt_text ≤ maxTok then full_prompt_text
  else
    let compact_prompt_text := compact_prompt ++ context_section ++ "\n\n" ++ text_block
    if maxTok < estimate_token_count compact_prompt_text then
      let base_tokens := estimate_token_count (compact_prompt ++ context_section)
      let available_tokens : ℤ := (maxTok : ℤ) - (base_tokens : ℤ) - 100
      let available_chars : ℤ := Int.tdiv (2 * available_tokens) 3
      if 100 < available_chars then
        compact_prompt ++ context_section ++ "\n\n" ++
          smart_truncate text_block available_chars.toNat
      else compact_prompt ++ "\n\n" ++ pySlice text_block available_chars
    else compact_prompt_text

/-! ### Claims C7 and C8: prompt budgeting -/

/-- The token estimate is the floored sum `1.5 * CJK + 0.75 * other`
(qa_extractor.py lines 77-82): the `Nat` division in
`estimate_token_count` computes exactly Python's
`int(chinese_chars * 1.5 + other_chars * 0.75)`. -/
theorem estimate_token_count_floor (t : String) :
    (estimate_token_count t : ℤ) =
      ⌊(3/2 : ℚ) * (((t.data.filter isCJK).length : ℚ)) +
        (3/4 : ℚ) * ((t.length - (t.data.filter isCJK).length : ℕ) : ℚ)⌋ := by
  unfold estimate_token_count
  set c := (t.data.filter isCJK).length with hc
  set o := t.length - c with ho
  have hval : (3/2 : ℚ) * (c : ℚ) + (3/4 : ℚ) * (o : ℚ) = ((6*c + 3*o : ℕ) : ℚ) / 4 := by
    push_cast
    ring
  rw [hval]
  symm
  rw [Int.floor_eq_iff]
  have h4 : (0:ℚ) < 4 := by norm_num
  rw [le_div_iff h4, div_lt_iff h4]
  constructor
  · exact_mod_cast Nat.div_mul_le_self (6*c + 3*o) 4
  · push_cast
    have := Nat.div_add_mod (6*c + 3*o) 4
    have := Nat.mod_lt (6*c + 3*o) (show 0 < 4 by norm_num)
    exact_mod_cast (by omega : (6*c + 3*o : ℕ) < ((6*c + 3*o)/4 + 1) * 4)

/-- C7.  `create_prompt` follows the budgeting order: full template when its
estimate fits; otherwise the compact template unchanged when that fits;
otherwise the block is smart-truncated to the character budget
`(max_prompt_tokens − tokens(compact+context) − 100) / 1.5` (truncated
toward zero) provided the budget is above the 100-character floor; else the
context header is dropped and the content hard-truncated (Python slice) to
the remaining characters.  The token estimate itself is the floored
`1.5*CJK + 0.75*other` count. -/
theorem create_prompt_budgeting (maxTok : Nat) (tb sc ba : String) :
    (∀ t : String, (estimate_token_count t : ℤ) =
      ⌊(3/2 : ℚ) * (((t.data.filter isCJK).length : ℚ)) +
        (3/4 : ℚ) * ((t.length - (t.data.filter isCJK).length : ℕ) : ℚ)⌋) ∧
    (estimate_token_count (full_prompt ++ contextSection sc ba ++ "\n\n" ++ tb) ≤ maxTok →
      create_prompt maxTok tb sc ba =
        full_prompt ++ contextSection sc ba ++ "\n\n" ++ tb) ∧
    (maxTok < estimate_token_count (full_prompt ++ contextSection sc ba ++ "\n\n" ++ tb) →
      estimate_token_count (compact_prompt ++ contextSection sc ba ++ "\n\n" ++ tb) ≤ maxTok →
      create_prompt maxTok tb sc ba =
        compact_prompt ++ contextSection sc ba ++ "\n\n" ++ tb) ∧
    (maxTok < estimate_token_count (full_prompt ++ contextSection sc ba ++ "\n\n" ++ tb) →
      maxTok < estimate_token_count (compact_prompt ++ contextSection sc ba ++ "\n\n" ++ tb) →
      100 < Int.tdiv (2 * ((maxTok : ℤ) -
        (estimate_token_count (compact_prompt ++ contextSection sc ba) : ℤ) - 100)) 3 →
      create_prompt maxTok tb sc ba =
        compact_prompt ++ contextSection sc ba ++ "\n\n" ++
          smart_truncate tb (Int.tdiv (2 * ((maxTok : ℤ) -
            (estimate_token_count (compact_prompt ++ contextSection sc ba) : ℤ) - 100)) 3).toNat) ∧
    (maxTok < estimate_token_count (full_prompt ++ contextSection sc ba ++ "\n\n" ++ tb) →
      maxTok < estimate_token_count (compact_prompt ++ contextSection sc ba ++ "\n\n" ++ tb) →
      Int.tdiv (2 * ((maxTok : ℤ) -
        (estimate_token_count (compact_prompt ++ contextSection sc ba) : ℤ) - 100)) 3 ≤ 100 →
      create_prompt maxTok tb sc ba =
        compact_prompt ++ "\n\n" ++ pySlice tb (Int.tdiv (2 * ((maxTok : ℤ) -
          (estimate_token_count (compact_prompt ++ contextSection sc ba) : ℤ) - 100)) 3)) := by
  refine ⟨estimate_token_count_floor, ?_, ?_, ?_, ?_⟩
  · intro h1
    unfold create_prompt
    rw [if_pos h1]
  · intro h1 h2
    unfold create_prompt
    rw [if_neg (by omega), if_neg (by omega)]
  · intro h1 h2 h3
    unfold create_prompt
    rw [if_neg (by omega), if_pos h2, if_pos h3]
  · intro h1 h2 h3
    unfold create_prompt
    rw [if_neg (by omega), if_pos h2, if_neg (by omega)]

/-- Left factor non-empty makes an append non-empty. -/
theorem str_append_ne_empty_of_left {s : String} (t : String) (hs : s ≠ "") :
    s ++ t ≠ "" := by
  intro he
  have hlen := congrArg String.length he
  rw [String.length_append] at hlen
  have h1 := str_length_pos hs
  have h0 : ("" : String).length = 0 := rfl
  omega

/-- C8.  For every block content, sliding context, anchor and positive token
ceiling, `create_prompt` returns a non-empty prompt (the function is total
in this embedding, matching the source's absence of any raising operation:
every branch is string slicing and concatenation). -/
theorem create_prompt_never_fails (maxTok : Nat) (tb sc ba : String)
    (h : 0 < maxTok) : create_prompt maxTok tb sc ba ≠ "" := by
  have hfull : full_prompt ≠ "" := by decide
  have hcompact : compact_prompt ≠ "" := by decide
  unfold create_prompt
  by_cases h1 : estimate_token_count
      (full_prompt ++ contextSection sc ba ++ "\n\n" ++ tb) ≤ maxTok
  · rw [if_pos h1]
    exact str_append_ne_empty_of_left _
      (str_append_ne_empty_of_left _ (str_append_ne_empty_of_left _ hfull))
  · rw [if_neg h1]
    by_cases h2 : maxTok < estimate_token_count
        (compact_prompt ++ contextSection sc ba ++ "\n\n" ++ tb)
    · rw [if_pos h2]
      by_cases h3 : 100 < Int.tdiv (2 * ((maxTok : ℤ) -
          (estimate_token_count (compact_prompt ++ contextSection sc ba) : ℤ) - 100)) 3
      · rw [if_pos h3]
        exact str_append_ne_empty_of_left _
          (str_append_ne_empty_of_left _ (str_append_ne_empty_of_left _ hcompact))
      · rw [if_neg h3]
        exact str_append_ne_empty_of_left _ (str_append_ne_empty_of_left _ hcompact)
    · rw [if_neg h2]
      exact str_append_ne_empty_of_left _
        (str_append_ne_empty_of_left _ (str_append_ne_empty_of_left _ hcompact))

/-- Witness for C8: zero-length content and a tiny ceiling still produce a
non-empty prompt. -/
theorem create_prompt_never_fails_witness :
    (0 : Nat) < 1 ∧ create_prompt 1 "" "" "" ≠ "" :=
  ⟨by decide, create_prompt_never_fails 1 "" "" "" (by decide)⟩

/-! ## TextProcessor.clean_question_text (text_processor.py lines 44-66) -/

/-- The default `known_prefixes` (config/settings.py lines 40-43, also the
`TextProcessor` constructor default). -/
def knownPrefixes : List String :=
  ["网友", "记者", "问", "提问者", "主持人", "文章引用", "Q", "观众", "评论",
   "主持", "用户"]

/-- One alternative of the anchored pattern `^(p1|p2|…)[：:]\s*`: if `l`
starts with `m` followed by a colon, the remainder after the colon. -/
def dropMarkerColon (m : List Char) (l : List Char) : Option (List Char) :=
  if beginsWith m l then
    match l.drop m.length with
    | c :: rest => if c = '：' ∨ c = ':' then some rest else none
    | [] => none
  else none

/-- The regex alternation tries the prefixes in list order; `\s*` then
consumes greedily.  Returns the text after the removed prefix, or `none`
when the anchored pattern does not match. -/
def matchKnown : List String → List Char → Option (List Char)
  | [], _ => none
  | m :: ms, l =>
    match dropMarkerColon m.data l with
    | some rest => some (rest.dropWhile pyIsSpace)
    | none => matchKnown ms l

/-- The character class of the fallback pattern (text_processor.py line 65):
CJK ideographs, ASCII letters and digits, the listed punctuation (including
the ASCII apostrophe, code 39, and the ASCII double quote, code 34), and
whitespace. -/
def fallbackClass (c : Char) : Bool :=
  (0x4E00 ≤ c.toNat && c.toNat ≤ 0x9FA5) ||
  ('A' ≤ c && c ≤ 'Z') || ('a' ≤ c && c ≤ 'z') || ('0' ≤ c && c ≤ '9') ||
  c ∈ ['（', '）', '【', '】', '「', '」', '《', '》', Char.ofNat 39,
       Char.ofNat 34, '、', ',', '，', '.', '。', '·'] ||
  pyIsSpace c

/-- Greedy `{1,20}`: try the longest admissible prefix first (the regex
engine backtracks from 20 down to 1 repetitions before failing). -/
def findFallback (l : List Char) : Nat → Option Nat
  | 0 => none
  | k + 1 =>
    if (l.take (k + 1)).all fallbackClass ∧
        (l.get? (k + 1) = some '：' ∨ l.get? (k + 1) = some ':') then
      some (k + 1)
    else findFallback l k

def matchFallback (l : List Char) : Option (List Char) :=
  match findFallback l 20 with
  | some k => some ((l.drop (k + 1)).dropWhile pyIsSpace)
  | none => none

/-- `TextProcessor.clean_question_text(question)`: strip a known speaker
prefix (and trailing whitespace of the remainder, via `.strip()`); if that
changed nothing, strip an unknown 1-20 character prefix ending in a colon.
The `None` input case of the source is outside this embedding (inputs here
are the strings handed over by `process_qa_pairs`). -/
def clean_question_text (question : String) : String :=
  let cleaned :=
    match matchKnown knownPrefixes question.data with
    | some rest => pyStrip ⟨rest⟩
    | none => pyStrip question
  if cleaned ≠ question then cleaned
  else
    match matchFallback question.data with
    | some rest => pyStrip ⟨rest⟩
    | none => pyStrip question

/-! ## TextProcessor.preprocess_qa_text (text_processor.py lines 20-42)

    text = re.sub(r'网友[：:]', '网友：', text)   (and likewise for
    问, 段永平, 段, 大道)
    text = re.sub(r'\n\s*\n\s*\n', '\n\n', text)

The colon substitutions scan left to right over non-overlapping matches of
a fixed marker followed by either colon, replacing with the marker and the
full-width colon.  The blank-line rule is a genuine regex with greedy,
backtracking `\s*`; `star1`/`star2` below implement exactly that
backtracking order for the fixed pattern. -/

/-- One pass of `re.sub(r'M[：:]', 'M：', l)` for a literal marker `M`. -/
def subColon (m : List Char) : List Char → List Char
  | [] => []
  | c :: rest =>
    if beginsWith (m ++ ['：']) (c :: rest) ∨ beginsWith (m ++ [':']) (c :: rest) then
      m ++ '：' :: subColon m (rest.drop m.length)
    else c :: subColon m rest
termination_by l => l.length
decreasing_by
  · simp only [List.length_cons]
    have := List.length_drop m.length rest
    omega
  · simp

/-- Matching `\s*\n` against `l` with a greedy, backtracking `\s*`:
prefer to extend the star; fall back to consuming the current character as
the literal `\n`.  Returns the number of characters matched. -/
def star2 : List Char → Option Nat
  | [] => none
  | c :: rest =>
    if pyIsSpace c then
      match star2 rest with
      | some n => some (n + 1)
      | none => if c = '\n' then some 1 else none
    else none

/-- Matching `\s*\n\s*\n` against `l`, greedy and backtracking as the
Python regex engine does. -/
def star1 : List Char → Option Nat
  | [] => none
  | c :: rest =>
    if pyIsSpace c then
      match star1 rest with
      | some n => some (n + 1)
      | none => if c = '\n' then (star2 rest).map (· + 1) else none
    else none

/-- `re.sub(r'\n\s*\n\s*\n', '\n\n', l)`: scan left to right; where
the pattern matches, emit the replacement and resume after the match. -/
def tripleSub : List Char → List Char
  | [] => []
  | c :: rest =>
    if c = '\n' then
      match star1 rest with
      | some n => '\n' :: '\n' :: tripleSub (rest.drop n)
      | none => c :: tripleSub rest
    else c :: tripleSub rest
termination_by l => l.length
decreasing_by
  · simp only [List.length_cons]
    have := List.length_drop n rest
    omega
  · simp
  · simp

/-- `TextProcessor.preprocess_qa_text(text)`. -/
def preprocess_qa_text (text : String) : String :=
  if text = "" then ""
  else
    ⟨tripleSub (subColon "大道".data (subColon "段".data (subColon "段永平".data
      (subColon "问".data (subColon "网友".data text.data)))))⟩

/-! ## QAExtractor.process_qa_pairs and the block-processing loop

`QAExtractionProcessor._process_blocks` (processor.py lines 186-303) calls,
per block: `preprocess_qa_text`, `create_prompt`, the LLM transport
`call_ollama` and the response parser `extract_json`.  The last two are the
external collaborators of spec §6 (network transport and free-form JSON
parsing), so they enter the embedding as oracle parameters: `llm i prompt`
is the transport's answer to the `i`-th block's call (`none` = failure) and
`extractJson` is the parser, returning the already-validated pair list
(`extract_json` only returns pairs passing `_is_valid_qa_pair`). -/

structure QAPair where
  question : String
  answer : String

structure ProcessedPair where
  question : String
  answer : String
  source_text : String
deriving DecidableEq

/-- `QAExtractor._is_valid_qa_pair` for string-valued fields: both
components are truthy and non-blank after stripping (for strings the two
conditions collapse to the stripped value being non-empty). -/
def is_valid_qa_pair (p : QAPair) : Bool :=
  pyStrip p.question ≠ "" && pyStrip p.answer ≠ ""

/-- `QAExtractor.process_qa_pairs(qa_pairs, source_text, text_processor)`
(qa_extractor.py lines 285-315): keep the valid pairs, clean each question,
and attach the originating block's content as `source_text`. -/
def process_qa_pairs (pairs : List QAPair) (source_text : String) :
    List ProcessedPair :=
  (pairs.filter is_valid_qa_pair).map
    (fun p => ⟨clean_question_text p.question, p.answer, source_text⟩)

/-- A block as handed to `_process_blocks`: `content` plus the metadata the
loop reads with `.get(…, "")`. -/
structure BlockData where
  content : String
  anchor : String
  sliding_context : String

/-- One entry of the `results` list built by `_process_blocks`. -/
structure BlockResult where
  block_idx : Nat
  success : Bool
  error : Option String
  qa_count : Nat
  qa_pairs : List ProcessedPair

/-- The loop body of `_process_blocks`, from block index `idx` on.  Failure
of the LLM call and an empty extraction each append a failure record and
`continue`; otherwise the processed pairs are recorded. -/
def processBlocksGo (maxTok : Nat) (llm : Nat → String → Option String)
    (extractJson : String → List QAPair) :
    Nat → List BlockData → List BlockResult
  | _, [] => []
  | idx, b :: bs =>
    let processed_block := preprocess_qa_text b.content
    let prompt := create_prompt maxTok processed_block b.sliding_context b.anchor
    match llm idx prompt with
    | none =>
      ⟨idx, false, some "LLM call failed", 0, []⟩ ::
        processBlocksGo maxTok llm extractJson (idx + 1) bs
    | some response =>
      match extractJson response with
      | [] =>
        ⟨idx, false, some "No Q&A pairs extracted", 0, []⟩ ::
          processBlocksGo maxTok llm extractJson (idx + 1) bs
      | q :: qs =>
        let processed_pairs := process_qa_pairs (q :: qs) b.content
        ⟨idx, true, none, processed_pairs.length, processed_pairs⟩ ::
          processBlocksGo maxTok llm extractJson (idx + 1) bs

/-- `QAExtractionProcessor._process_blocks(blocks, …)`. -/
def processBlocks (maxTok : Nat) (llm : Nat → String → Option String)
    (extractJson : String → List QAPair) (blocks : List BlockData) :
    List BlockResult :=
  processBlocksGo maxTok llm extractJson 0 blocks

/-! ## QAExtractionProcessor._generate_statistics (processor.py lines 312-366) -/

structure QualityMetrics where
  avg_question_length : ℚ
  avg_answer_length : ℚ
  min_question_length : Nat
  max_question_length : Nat
  min_answer_length : Nat
  max_answer_length : Nat

structure Stats where
  total_blocks : Nat
  successful_blocks : Nat
  failed_blocks : ℤ
  success_rate : ℚ
  qa_pairs_extracted : Nat
  avg_qa_per_block : ℚ
  quality_metrics : Option QualityMetrics

def natListMin : List Nat → Nat
  | [] => 0
  | x :: xs => xs.foldl Nat.min x

def natListMax : List Nat → Nat
  | [] => 0
  | x :: xs => xs.foldl Nat.max x

def avgQ (l : List Nat) : ℚ := ((l.sum : ℚ)) / (l.length : ℚ)

/-- `QAExtractionProcessor._generate_statistics(results, pdf_info,
total_blocks)` (the `pdf_info` field only feeds the `pdf_pages` entry,
omitted here).  The quality-metrics dictionary stays empty (`none`) unless
some block succeeded and contributed pairs. -/
def generate_statistics (results : List BlockResult) (totalBlocks : Nat) : Stats :=
  let successful_blocks := (results.filter (fun r => r.success)).length
  let total_qa_pairs := (results.map (fun r => r.qa_count)).sum
  let all_qa_pairs := (results.filter (fun r => r.success)).flatMap (fun r => r.qa_pairs)
  let question_lengths := all_qa_pairs.map (fun p => p.question.length)
  let answer_lengths := all_qa_pairs.map (fun p => p.answer.length)
  { total_blocks := totalBlocks
    successful_blocks := successful_blocks
    failed_blocks := (totalBlocks : ℤ) - (successful_blocks : ℤ)
    success_rate :=
      if 0 < totalBlocks then (successful_blocks : ℚ) / (totalBlocks : ℚ) else 0
    qa_pairs_extracted := total_qa_pairs
    avg_qa_per_block :=
      if 0 < successful_blocks then (total_qa_pairs : ℚ) / (successful_blocks : ℚ) else 0
    quality_metrics :=
      if 0 < successful_blocks ∧ all_qa_pairs ≠ [] then
        some ⟨avgQ question_lengths, avgQ answer_lengths,
          natListMin question_lengths, natListMax question_lengths,
          natListMin answer_lengths, natListMax answer_lengths⟩
      else none }

/-! ### Claim C9: per-block failure containment and aggregate statistics -/

theorem processBlocksGo_length (maxTok : Nat) (llm : Nat → String → Option String)
    (extractJson : String → List QAPair) :
    ∀ (bs : List BlockData) (idx : Nat),
      (processBlocksGo maxTok llm extractJson idx bs).length = bs.length := by
  intro bs
  induction bs with
  | nil => intro idx; simp [processBlocksGo]
  | cons b bs ih =>
    intro idx
    simp only [processBlocksGo]
    split
    · simp [ih]
    · split <;> simp [ih]

theorem processBlocksGo_get? (maxTok : Nat) (llm : Nat → String → Option String)
    (extractJson : String → List QAPair) :
    ∀ (bs : List BlockData) (idx i : Nat) (r : BlockResult),
      (processBlocksGo maxTok llm extractJson idx bs).get? i = some r →
      r.block_idx = idx + i ∧
      (r.success = false → r.qa_count = 0 ∧ r.qa_pairs = []) ∧
      ((∀ pr, llm (idx + i) pr = none) ∨
          (∀ pr resp, llm (idx + i) pr = some resp → extractJson resp = []) →
        r.success = false ∧ r.qa_count = 0) := by
  intro bs
  induction bs with
  | nil =>
    intro idx i r hr
    simp [processBlocksGo] at hr
  | cons b bs ih =>
    intro idx i r hr
    simp only [processBlocksGo] at hr
    rcases hl : llm idx (create_prompt maxTok (preprocess_qa_text b.content)
        b.sliding_context b.anchor) with _ | response
    · rw [hl] at hr
      match i with
      | 0 =>
        simp only [List.get?_cons_zero, Option.some.injEq] at hr
        subst hr
        exact ⟨by simp, by simp, fun _ => by simp⟩
      | i + 1 =>
        simp only [List.get?_cons_succ] at hr
        have := ih (idx + 1) i r hr
        constructor
        · rw [this.1]; omega
        refine ⟨this.2.1, fun hor => this.2.2 ?_⟩
        have harith : idx + 1 + i = idx + (i + 1) := by omega
        rw [harith]
        exact hor
    · rw [hl] at hr
      dsimp only at hr
      rcases he : extractJson response with _ | ⟨q, qs⟩
      · rw [he] at hr
        match i with
        | 0 =>
          simp only [List.get?_cons_zero, Option.some.injEq] at hr
          subst hr
          exact ⟨by simp, by simp, fun _ => by simp⟩
        | i + 1 =>
          simp only [List.get?_cons_succ] at hr
          have := ih (idx + 1) i r hr
          constructor
          · rw [this.1]; omega
          refine ⟨this.2.1, fun hor => this.2.2 ?_⟩
          have harith : idx + 1 + i = idx + (i + 1) := by omega
          rw [harith]
          exact hor
      · rw [he] at hr
        match i with
        | 0 =>
          simp only [List.get?_cons_zero, Option.some.injEq] at hr
          subst hr
          refine ⟨by simp, by simp, fun hor => ?_⟩
          rcases hor with hnone | hempty
          · rw [Nat.add_zero] at hnone
            rw [hnone _] at hl
            exact absurd hl (by simp)
          · rw [Nat.add_zero] at hempty
            rw [hempty _ _ hl] at he
            exact absurd he (by simp)
        | i + 1 =>
          simp only [List.get?_cons_succ] at hr
          have := ih (idx + 1) i r hr
          constructor
          · rw [this.1]; omega
          refine ⟨this.2.1, fun hor => this.2.2 ?_⟩
          have harith : idx + 1 + i = idx + (i + 1) := by omega
          rw [harith]
          exact hor

/-- C9.  With the per-block LLM transport and the response parser as
oracles, `_process_blocks` emits exactly one result per input block in
input order; a block whose call fails (or whose response parses to no valid
pair) is recorded as `success = false` with `qa_count = 0` while the loop
continues; and `_generate_statistics` produces the aggregate numbers even
when every block fails. -/
theorem process_blocks_containment (maxTok : Nat)
    (llm : Nat → String → Option String) (extractJson : String → List QAPair)
    (blocks : List BlockData) :
    (processBlocks maxTok llm extractJson blocks).length = blocks.length ∧
    (∀ (i : Nat) (h : i < (processBlocks maxTok llm extractJson blocks).length),
      ((processBlocks maxTok llm extractJson blocks).get ⟨i, h⟩).block_idx = i) ∧
    (∀ (i : Nat) (h : i < (processBlocks maxTok llm extractJson blocks).length),
      ((∀ pr, llm i pr = none) ∨
          (∀ pr r, llm i pr = some r → extractJson r = [])) →
        ((processBlocks maxTok llm extractJson blocks).get ⟨i, h⟩).success = false ∧
        ((processBlocks maxTok llm extractJson blocks).get ⟨i, h⟩).qa_count = 0) ∧
    (∀ r ∈ processBlocks maxTok llm extractJson blocks,
      r.success = false → r.qa_count = 0) ∧
    ((∀ r ∈ processBlocks maxTok llm extractJson blocks, r.success = false) →
      (generate_statistics (processBlocks maxTok llm extractJson blocks)
          blocks.length).total_blocks = blocks.length ∧
      (generate_statistics (processBlocks maxTok llm extractJson blocks)
          blocks.length).successful_blocks = 0 ∧
      (generate_statistics (processBlocks maxTok llm extractJson blocks)
          blocks.length).qa_pairs_extracted = 0 ∧
      (generate_statistics (processBlocks maxTok llm extractJson blocks)
          blocks.length).quality_metrics = none) := by
  refine ⟨processBlocksGo_length maxTok llm extractJson blocks 0, ?_, ?_, ?_, ?_⟩
  · intro i h
    have hg := List.get?_eq_get h
    have := (processBlocksGo_get? maxTok llm extractJson blocks 0 i _ hg).1
    simpa using this
  · intro i h hor
    have hg := List.get?_eq_get h
    have := (processBlocksGo_get? maxTok llm extractJson blocks 0 i _ hg).2.2
    simp only [Nat.zero_add] at this
    exact this hor
  · intro r hr hfail
    rcases List.mem_iff_get.mp hr with ⟨⟨i, hi⟩, rfl⟩
    have hg := List.get?_eq_get hi
    exact ((processBlocksGo_get? maxTok llm extractJson blocks 0 i _ hg).2.1 hfail).1
  · intro hall
    have hfilter : (processBlocks maxTok llm extractJson blocks).filter
        (fun r => r.success) = [] := by
      apply List.filter_eq_nil_iff.mpr
      intro r hr
      simp [hall r hr]
    have hcounts : ∀ r ∈ processBlocks maxTok llm extractJson blocks, r.qa_count = 0 := by
      intro r hr
      rcases List.mem_iff_get.mp hr with ⟨⟨i, hi⟩, rfl⟩
      have hg := List.get?_eq_get hi
      exact ((processBlocksGo_get? maxTok llm extractJson blocks 0 i _ hg).2.1
        (hall _ hr)).1
    have hsum : ((processBlocks maxTok llm extractJson blocks).map
        (fun r => r.qa_count)).sum = 0 := by
      apply List.sum_eq_zero
      intro x hx
      rcases List.mem_map.mp hx with ⟨r, hr, rfl⟩
      exact hcounts r hr
    refine ⟨rfl, ?_, ?_, ?_⟩
    · simp [generate_statistics, hfilter]
    · simp [generate_statistics, hsum]
    · simp [generate_statistics, hfilter]

/-! ### Claim C10: idempotence of `preprocess_qa_text`

The proof goes through a normal form: after one pass, (a) no marker is
followed by an ASCII colon any more (so the colon substitutions become the
identity), and (b) every maximal whitespace run contains at most two
newlines (so the blank-line pattern no longer matches anywhere). -/

/-- `beginsWith` gives the decomposition used by the scanner. -/
theorem beginsWith_decomp {p l : List Char} (h : beginsWith p l = true) :
    ∃ t, l = p ++ t ∧ t = l.drop p.length := by
  rcases (beginsWith_iff p l).mp h with ⟨t, ht⟩
  refine ⟨t, ht.symm, ?_⟩
  rw [← ht, List.drop_left]

/-- A scanning pass whose pattern never occurs (with the ASCII colon) is the
identity: every match found carries the full-width colon and is replaced by
itself. -/
theorem subColon_eq_self (m : List Char) :
    ∀ l : List Char, ¬ ((m ++ [':']) <:+: l) → subColon m l = l := by
  intro l
  induction l using subColon.induct m with
  | case1 => intro _; simp [subColon]
  | case2 c rest hbw ih =>
    intro hno
    rw [subColon, if_pos hbw]
    rcases hbw with hfw | hascii
    · rcases beginsWith_decomp hfw with ⟨t, hdec, hdrop⟩
      have htail : rest.drop m.length = t := by
        rw [hdrop]
        simp [List.length_append]
      have hnot : ¬ ((m ++ [':']) <:+: rest.drop m.length) := by
        rw [htail]
        intro hocc
        exact hno (hocc.trans (by rw [hdec]; exact (List.suffix_append _ _).isInfix))
      rw [ih hnot, htail, hdec]
      simp
    · exfalso
      exact hno ((beginsWith_iff _ _).mp hascii).isInfix
  | case3 c rest hbw ih =>
    intro hno
    rw [subColon, if_neg hbw]
    rw [ih (fun hocc => hno (hocc.trans (List.suffix_cons c rest).isInfix))]

/-- Pointwise relation between the output and the input of a colon pass:
equal characters, except that an ASCII colon may have become full-width. -/
inductive CharRel : List Char → List Char → Prop where
  | nil : CharRel [] []
  | same (c : Char) {l₁ l₂ : List Char} : CharRel l₁ l₂ → CharRel (c :: l₁) (c :: l₂)
  | colon {l₁ l₂ : List Char} : CharRel l₁ l₂ → CharRel ('：' :: l₁) (':' :: l₂)

theorem CharRel.refl : ∀ l : List Char, CharRel l l
  | [] => .nil
  | c :: rest => .same c (CharRel.refl rest)

theorem CharRel.append_left (u : List Char) {l₁ l₂ : List Char}
    (h : CharRel l₁ l₂) : CharRel (u ++ l₁) (u ++ l₂) := by
  induction u with
  | nil => exact h
  | cons c u ih => exact .same c ih

theorem subColon_charRel (m : List Char) :
    ∀ l : List Char, CharRel (subColon m l) l := by
  intro l
  induction l using subColon.induct m with
  | case1 => simp only [subColon]; exact .nil
  | case2 c rest hbw ih =>
    rw [subColon, if_pos hbw]
    rcases hbw with hfw | hascii
    · rcases beginsWith_decomp hfw with ⟨t, hdec, hdrop⟩
      have htail : rest.drop m.length = t := by
        rw [hdrop]
        simp [List.length_append]
      rw [hdec]
      have : CharRel (m ++ '：' :: subColon m (rest.drop m.length))
          (m ++ '：' :: t) := by
        apply CharRel.append_left
        rw [htail]
        exact .same '：' (htail ▸ ih)
      simpa using this
    · rcases beginsWith_decomp hascii with ⟨t, hdec, hdrop⟩
      have htail : rest.drop m.length = t := by
        rw [hdrop]
        simp [List.length_append]
      rw [hdec]
      have : CharRel (m ++ '：' :: subColon m (rest.drop m.length))
          (m ++ ':' :: t) := by
        apply CharRel.append_left
        exact .colon (htail ▸ ih)
      simpa using this
  | case3 c rest hbw ih =>
    rw [subColon, if_neg hbw]
    exact .same c ih

/-- Transfer of prefixes backwards along `CharRel` for patterns without a
full-width colon. -/
theorem CharRel.prefix_transfer :
    ∀ {l₁ l₂ : List Char}, CharRel l₁ l₂ → ∀ p : List Char, '：' ∉ p →
      p <+: l₁ → p <+: l₂ := by
  intro l₁ l₂ h
  induction h with
  | nil => intro p _ hp; exact hp
  | same c hrel ih =>
    intro p hnc hp
    match p with
    | [] => exact List.nil_prefix
    | x :: p' =>
      rcases List.cons_prefix_cons.mp hp with ⟨rfl, hp'⟩
      exact List.cons_prefix_cons.mpr ⟨rfl, ih p' (fun hm => hnc (by simp [hm])) hp'⟩
  | colon hrel ih =>
    intro p hnc hp
    match p with
    | [] => exact List.nil_prefix
    | x :: p' =>
      rcases List.cons_prefix_cons.mp hp with ⟨rfl, hp'⟩
      exact absurd (by simp : '：' ∈ '：' :: p') hnc

/-- Transfer of occurrences backwards along `CharRel` for patterns without a
full-width colon. -/
theorem CharRel.infix_transfer :
    ∀ {l₁ l₂ : List Char}, CharRel l₁ l₂ → ∀ p : List Char, '：' ∉ p →
      p <:+: l₁ → p <:+: l₂ := by
  intro l₁ l₂ h
  induction h with
  | nil => intro p _ hp; exact hp
  | same c hrel ih =>
    intro p hnc hp
    rcases List.infix_cons_iff.mp hp with hpre | hinf
    · exact List.infix_cons_iff.mpr
        (Or.inl ((CharRel.same c hrel).prefix_transfer p hnc hpre))
    · exact List.infix_cons_iff.mpr (Or.inr (ih p hnc hinf))
  | colon hrel ih =>
    intro p hnc hp
    rcases List.infix_cons_iff.mp hp with hpre | hinf
    · exact List.infix_cons_iff.mpr
        (Or.inl ((CharRel.colon hrel).prefix_transfer p hnc hpre))
    · exact List.infix_cons_iff.mpr (Or.inr (ih p hnc hinf))

/-- A pattern containing an ASCII colon but no full-width one is no prefix
of `u ++ '：' :: T` when `u` has no ASCII colon and the pattern does not
occur in `T`. -/
theorem no_prefix_around_fullwidth {p u T : List Char}
    (h1 : '：' ∉ p) (h2 : ':' ∈ p) (h3 : ':' ∉ u) :
    ¬ p <+: (u ++ '：' :: T) := by
  intro hp
  rcases le_or_lt p.length u.length with hlen | hlen
  · have hpu : p <+: u :=
      List.prefix_of_prefix_length_le hp (List.prefix_append u ('：' :: T)) hlen
    exact h3 (hpu.subset h2)
  · have hup : u <+: p :=
      List.prefix_of_prefix_length_le (List.prefix_append u ('：' :: T)) hp
        (Nat.le_of_lt hlen)
    rcases hup with ⟨p', rfl⟩
    rcases hp with ⟨t, ht⟩
    rw [List.append_assoc, List.append_cancel_left_eq] at ht
    match p', ht with
    | [], _ =>
      rw [List.append_nil] at hlen
      exact absurd rfl (Nat.ne_of_lt hlen).symm
    | x :: p'', ht =>
      have : x = '：' := by
        have := congrArg (List.head?) ht
        simpa using this
      subst this
      exact h1 (by simp)

/-- A pattern containing an ASCII colon but no full-width one does not
occur in `u ++ '：' :: T` when `u` is colon-free and the pattern does not
occur in `T`. -/
theorem no_infix_around_fullwidth {p T : List Char}
    (h1 : '：' ∉ p) (h2 : ':' ∈ p) (hT : ¬ p <:+: T) :
    ∀ u : List Char, ':' ∉ u → ¬ p <:+: (u ++ '：' :: T) := by
  intro u
  induction u with
  | nil =>
    intro _ hocc
    rcases List.infix_cons_iff.mp hocc with hpre | hinf
    · exact no_prefix_around_fullwidth (u := []) h1 h2 (by simp) hpre
    · exact hT hinf
  | cons a u ih =>
    intro ha hocc
    rcases List.infix_cons_iff.mp hocc with hpre | hinf
    · exact no_prefix_around_fullwidth h1 h2 ha hpre
    · exact ih (fun hm => ha (by simp [hm])) hinf

/-- After one colon pass for marker `m` (with no colon of either kind in
`m`), the marker is never followed by an ASCII colon. -/
theorem subColon_removes (m : List Char) (hm1 : '：' ∉ m) (hm2 : ':' ∉ m) :
    ∀ l : List Char, ¬ ((m ++ [':']) <:+: subColon m l) := by
  have h1 : '：' ∉ m ++ [':'] := by
    intro hmem
    rcases List.mem_append.mp hmem with h | h
    · exact hm1 h
    · simp at h
  have h2 : ':' ∈ m ++ [':'] := by simp
  intro l
  induction l using subColon.induct m with
  | case1 =>
    simp only [subColon]
    intro hocc
    have := List.eq_nil_of_infix_nil hocc
    simp at this
  | case2 c rest hbw ih =>
    rw [subColon, if_pos hbw]
    exact no_infix_around_fullwidth h1 h2 ih m hm2
  | case3 c rest hbw ih =>
    intro hocc
    rw [subColon, if_neg hbw] at hocc
    rcases List.infix_cons_iff.mp hocc with hpre | hinf
    · have : m ++ [':'] <+: c :: rest :=
        (CharRel.same c (subColon_charRel m rest)).prefix_transfer _ h1 hpre
      have hbw2 : beginsWith (m ++ [':']) (c :: rest) = true :=
        (beginsWith_iff _ _).mpr this
      exact hbw (Or.inr hbw2)
    · exact ih hinf

/-- Number of newlines in the maximal whitespace prefix — the quantity that
decides whether `\n\s*\n\s*\n` can match from a given position. -/
def nlCount (l : List Char) : Nat := (l.takeWhile pyIsSpace).count '\n'

/-- The pattern head position: a match of `\n\s*\n\s*\n` starts here iff
the first character is a newline and `\s*\n\s*\n` matches the rest. -/
def tripleMatchAt : List Char → Option Nat
  | [] => none
  | c :: rest => if c = '\n' then star1 rest else none

theorem nlCount_nil : nlCount [] = 0 := rfl

theorem nlCount_cons_space {c : Char} (hc : pyIsSpace c = true) (l : List Char) :
    nlCount (c :: l) = (if c = '\n' then 1 else 0) + nlCount l := by
  unfold nlCount
  rw [List.takeWhile_cons, if_pos hc]
  by_cases h : c = '\n'
  · subst h
    rw [if_pos rfl]
    simp [List.count_cons]
    omega
  · rw [if_neg h]
    simp [List.count_cons, h]

theorem nlCount_cons_nonspace {c : Char} (hc : ¬ pyIsSpace c = true) (l : List Char) :
    nlCount (c :: l) = 0 := by
  unfold nlCount
  rw [List.takeWhile_cons, if_neg hc]
  rfl

theorem newline_is_space : pyIsSpace '\n' = true := by decide

theorem star2_cons_nonspace {c : Char} (hc : ¬ pyIsSpace c = true)
    (rest : List Char) : star2 (c :: rest) = none := by
  rw [star2, if_neg hc]

theorem star2_cons_space_some {c : Char} {rest : List Char} {n : Nat}
    (hc : pyIsSpace c = true) (hs : star2 rest = some n) :
    star2 (c :: rest) = some (n + 1) := by
  rw [star2, if_pos hc, hs]

theorem star2_cons_space_none {c : Char} {rest : List Char}
    (hc : pyIsSpace c = true) (hs : star2 rest = none) :
    star2 (c :: rest) = if c = '\n' then some 1 else none := by
  rw [star2, if_pos hc, hs]

theorem star1_cons_nonspace {c : Char} (hc : ¬ pyIsSpace c = true)
    (rest : List Char) : star1 (c :: rest) = none := by
  rw [star1, if_neg hc]

theorem star1_cons_space_some {c : Char} {rest : List Char} {n : Nat}
    (hc : pyIsSpace c = true) (hs : star1 rest = some n) :
    star1 (c :: rest) = some (n + 1) := by
  rw [star1, if_pos hc, hs]

theorem star1_cons_space_none {c : Char} {rest : List Char}
    (hc : pyIsSpace c = true) (hs : star1 rest = none) :
    star1 (c :: rest) = if c = '\n' then (star2 rest).map (· + 1) else none := by
  rw [star1, if_pos hc, hs]

theorem star2_none_iff : ∀ l : List Char, star2 l = none ↔ nlCount l = 0 := by
  intro l
  induction l with
  | nil => simp [star2, nlCount_nil]
  | cons c rest ih =>
    by_cases hc : pyIsSpace c = true
    · rw [nlCount_cons_space hc]
      rcases hs : star2 rest with _ | n
      · rw [star2_cons_space_none hc hs]
        by_cases hnl : c = '\n'
        · rw [if_pos hnl, if_pos hnl]
          constructor
          · intro h; exact absurd h (by simp)
          · intro h; exact absurd h (by omega)
        · rw [if_neg hnl, if_neg hnl]
          simp only [Nat.zero_add]
          constructor
          · intro _
            exact ih.mp hs
          · intro _
            trivial
      · rw [star2_cons_space_some hc hs]
        constructor
        · intro h; exact absurd h (by simp)
        · intro h
          have h0 : nlCount rest = 0 := by
            by_cases hnl : c = '\n' <;> simp [hnl] at h <;> omega
          rw [ih.mpr h0] at hs
          exact absurd hs (by simp)
    · rw [star2_cons_nonspace hc, nlCount_cons_nonspace hc]
      simp

theorem star2_some_count : ∀ (l : List Char) (n : Nat), star2 l = some n →
    1 ≤ nlCount l := by
  intro l
  induction l with
  | nil => intro n h; simp [star2] at h
  | cons c rest ih =>
    intro n h
    by_cases hc : pyIsSpace c = true
    · rw [nlCount_cons_space hc]
      rcases hs : star2 rest with _ | k
      · rw [star2_cons_space_none hc hs] at h
        by_cases hnl : c = '\n'
        · rw [if_pos hnl]
          omega
        · rw [if_neg hnl] at h
          exact absurd h (by simp)
      · have h1 := ih k hs
        have h2 : nlCount rest ≤ (if c = '\n' then 1 else 0) + nlCount rest := by
          split <;> omega
        omega
    · rw [star2_cons_nonspace hc] at h
      exact absurd h (by simp)

theorem star2_some_drop : ∀ (l : List Char) (n : Nat), star2 l = some n →
    nlCount (l.drop n) = 0 := by
  intro l
  induction l with
  | nil => intro n h; simp [star2] at h
  | cons c rest ih =>
    intro n h
    by_cases hc : pyIsSpace c = true
    · rcases hs : star2 rest with _ | k
      · rw [star2_cons_space_none hc hs] at h
        by_cases hnl : c = '\n'
        · rw [if_pos hnl] at h
          have hn : n = 1 := by
            have := Option.some.inj h
            omega
          subst hn
          simp only [List.drop_succ_cons, List.drop_zero]
          exact (star2_none_iff rest).mp hs
        · rw [if_neg hnl] at h
          exact absurd h (by simp)
      · rw [star2_cons_space_some hc hs] at h
        have hn : n = k + 1 := by
          have := Option.some.inj h
          omega
        subst hn
        simp only [List.drop_succ_cons]
        exact ih k hs
    · rw [star2_cons_nonspace hc] at h
      exact absurd h (by simp)

theorem star1_none_iff : ∀ l : List Char, star1 l = none ↔ nlCount l ≤ 1 := by
  intro l
  induction l with
  | nil => simp [star1, nlCount_nil]
  | cons c rest ih =>
    by_cases hc : pyIsSpace c = true
    · rw [nlCount_cons_space hc]
      rcases hs : star1 rest with _ | n
      · rw [star1_cons_space_none hc hs]
        by_cases hnl : c = '\n'
        · rw [if_pos hnl, if_pos hnl]
          rcases h2 : star2 rest with _ | k
          · simp only [Option.map_none']
            constructor
            · intro _
              have := (star2_none_iff rest).mp h2
              omega
            · intro _
              trivial
          · simp only [Option.map_some']
            constructor
            · intro h; exact absurd h (by simp)
            · intro h
              have hk := star2_some_count rest k h2
              exact absurd h (by omega)
        · rw [if_neg hnl, if_neg hnl]
          simp only [Nat.zero_add]
          constructor
          · intro _
            exact ih.mp hs
          · intro _
            trivial
      · rw [star1_cons_space_some hc hs]
        constructor
        · intro h; exact absurd h (by simp)
        · intro h
          have hle : nlCount rest ≤ 1 := by
            by_cases hnl : c = '\n' <;> simp [hnl] at h <;> omega
          rw [ih.mpr hle] at hs
          exact absurd hs (by simp)
    · rw [star1_cons_nonspace hc, nlCount_cons_nonspace hc]
      simp

theorem star1_some_count : ∀ (l : List Char) (n : Nat), star1 l = some n →
    2 ≤ nlCount l := by
  intro l
  induction l with
  | nil => intro n h; simp [star1] at h
  | cons c rest ih =>
    intro n h
    by_cases hc : pyIsSpace c = true
    · rw [nlCount_cons_space hc]
      rcases hs : star1 rest with _ | k
      · rw [star1_cons_space_none hc hs] at h
        by_cases hnl : c = '\n'
        · rw [if_pos hnl] at h
          rcases h2 : star2 rest with _ | j
          · rw [h2] at h
            exact absurd h (by simp)
          · have := star2_some_count rest j h2
            rw [if_pos hnl]
            omega
        · rw [if_neg hnl] at h
          exact absurd h (by simp)
      · have h1 := ih k hs
        have h2 : nlCount rest ≤ (if c = '\n' then 1 else 0) + nlCount rest := by
          split <;> omega
        omega
    · rw [star1_cons_nonspace hc] at h
      exact absurd h (by simp)

theorem star1_some_drop : ∀ (l : List Char) (n : Nat), star1 l = some n →
    nlCount (l.drop n) = 0 := by
  intro l
  induction l with
  | nil => intro n h; simp [star1] at h
  | cons c rest ih =>
    intro n h
    by_cases hc : pyIsSpace c = true
    · rcases hs : star1 rest with _ | k
      · rw [star1_cons_space_none hc hs] at h
        by_cases hnl : c = '\n'
        · rw [if_pos hnl] at h
          rcases h2 : star2 rest with _ | j
          · rw [h2] at h
            exact absurd h (by simp)
          · rw [h2] at h
            simp only [Option.map_some', Option.some.injEq] at h
            subst h
            simp only [List.drop_succ_cons]
            exact star2_some_drop rest j h2
        · rw [if_neg hnl] at h
          exact absurd h (by simp)
      · rw [star1_cons_space_some hc hs] at h
        have hn : n = k + 1 := by
          have := Option.some.inj h
          omega
        subst hn
        simp only [List.drop_succ_cons]
        exact ih k hs
    · rw [star1_cons_nonspace hc] at h
      exact absurd h (by simp)

theorem tripleSub_nil : tripleSub [] = [] := by
  simp [tripleSub]

theorem tripleSub_cons_match {rest : List Char} {n : Nat}
    (hs : star1 rest = some n) :
    tripleSub ('\n' :: rest) = '\n' :: '\n' :: tripleSub (rest.drop n) := by
  rw [tripleSub, if_pos rfl, hs]

theorem tripleSub_cons_nl_none {rest : List Char} (hs : star1 rest = none) :
    tripleSub ('\n' :: rest) = '\n' :: tripleSub rest := by
  rw [tripleSub, if_pos rfl, hs]

theorem tripleSub_cons_other {c : Char} (hc : ¬ c = '\n') (rest : List Char) :
    tripleSub (c :: rest) = c :: tripleSub rest := by
  rw [tripleSub, if_neg hc]

/-- A whitespace prefix with at most one newline is preserved by the
blank-line pass (no match can start inside it). -/
theorem tripleSub_takeWhile :
    ∀ l : List Char, nlCount l ≤ 1 →
      (tripleSub l).takeWhile pyIsSpace = l.takeWhile pyIsSpace := by
  intro l
  induction l using tripleSub.induct with
  | case1 => intro _; rw [tripleSub_nil]
  | case2 rest n hs ih =>
    intro h
    have h2 := star1_some_count rest n hs
    rw [nlCount_cons_space newline_is_space, if_pos rfl] at h
    omega
  | case3 rest hs ih =>
    intro h
    rw [tripleSub_cons_nl_none hs]
    rw [List.takeWhile_cons, List.takeWhile_cons, if_pos newline_is_space,
      if_pos newline_is_space]
    rw [nlCount_cons_space newline_is_space, if_pos rfl] at h
    rw [ih (by omega)]
  | case4 c rest hc ih =>
    intro h
    rw [tripleSub_cons_other hc]
    by_cases hsp : pyIsSpace c = true
    · rw [List.takeWhile_cons, List.takeWhile_cons, if_pos hsp, if_pos hsp]
      rw [nlCount_cons_space hsp, if_neg hc] at h
      rw [ih (by omega)]
    · rw [List.takeWhile_cons, List.takeWhile_cons, if_neg hsp, if_neg hsp]

theorem nlCount_eq_of_takeWhile_eq {l₁ l₂ : List Char}
    (h : l₁.takeWhile pyIsSpace = l₂.takeWhile pyIsSpace) :
    nlCount l₁ = nlCount l₂ := by
  unfold nlCount
  rw [h]

/-- After the blank-line pass, the pattern `\n\s*\n\s*\n` matches nowhere. -/
theorem tripleSub_noMatch :
    ∀ l : List Char, ∀ i : Nat, tripleMatchAt ((tripleSub l).drop i) = none := by
  intro l
  induction l using tripleSub.induct with
  | case1 =>
    intro i
    rw [tripleSub_nil]
    simp [tripleMatchAt]
  | case2 rest n hs ih =>
    intro i
    rw [tripleSub_cons_match hs]
    have hT0 : nlCount (rest.drop n) = 0 := star1_some_drop rest n hs
    have hTn : nlCount (tripleSub (rest.drop n)) = 0 := by
      rw [nlCount_eq_of_takeWhile_eq (tripleSub_takeWhile _ (by omega))]
      exact hT0
    match i with
    | 0 =>
      rw [List.drop_zero, tripleMatchAt, if_pos rfl]
      rw [star1_none_iff]
      rw [nlCount_cons_space newline_is_space, if_pos rfl]
      omega
    | 1 =>
      rw [List.drop_succ_cons, List.drop_zero, tripleMatchAt, if_pos rfl]
      rw [star1_none_iff]
      omega
    | i + 2 =>
      rw [List.drop_succ_cons, List.drop_succ_cons]
      exact ih i
  | case3 rest hs ih =>
    intro i
    rw [tripleSub_cons_nl_none hs]
    match i with
    | 0 =>
      rw [List.drop_zero, tripleMatchAt, if_pos rfl]
      rw [star1_none_iff]
      have h1 := (star1_none_iff rest).mp hs
      rw [nlCount_eq_of_takeWhile_eq (tripleSub_takeWhile _ h1)]
      exact h1
    | i + 1 =>
      rw [List.drop_succ_cons]
      exact ih i
  | case4 c rest hc ih =>
    intro i
    rw [tripleSub_cons_other hc]
    match i with
    | 0 =>
      rw [List.drop_zero, tripleMatchAt, if_neg hc]
    | i + 1 =>
      rw [List.drop_succ_cons]
      exact ih i

/-- The blank-line pass is the identity on a string where the pattern
matches nowhere. -/
theorem tripleSub_eq_self :
    ∀ l : List Char, (∀ i : Nat, tripleMatchAt (l.drop i) = none) →
      tripleSub l = l := by
  intro l
  induction l using tripleSub.induct with
  | case1 => intro _; rw [tripleSub_nil]
  | case2 rest n hs ih =>
    intro h
    have h0 := h 0
    rw [List.drop_zero, tripleMatchAt, if_pos rfl, hs] at h0
    exact absurd h0 (by simp)
  | case3 rest hs ih =>
    intro h
    rw [tripleSub_cons_nl_none hs]
    rw [ih (fun i => by have := h (i + 1); rwa [List.drop_succ_cons] at this)]
  | case4 c rest hc ih =>
    intro h
    rw [tripleSub_cons_other hc]
    rw [ih (fun i => by have := h (i + 1); rwa [List.drop_succ_cons] at this)]

/-- A newline-free pattern that prefixes the output of the blank-line pass
prefixes its input. -/
theorem tripleSub_prefix_transfer :
    ∀ (l p : List Char), '\n' ∉ p → p <+: tripleSub l → p <+: l := by
  intro l
  induction l using tripleSub.induct with
  | case1 =>
    intro p _ hp
    rwa [tripleSub_nil] at hp
  | case2 rest n hs ih =>
    intro p hnl hp
    rw [tripleSub_cons_match hs] at hp
    match p with
    | [] => exact List.nil_prefix
    | x :: p' =>
      rcases List.cons_prefix_cons.mp hp with ⟨rfl, _⟩
      exact absurd (by simp : '\n' ∈ '\n' :: p') hnl
  | case3 rest hs ih =>
    intro p hnl hp
    rw [tripleSub_cons_nl_none hs] at hp
    match p with
    | [] => exact List.nil_prefix
    | x :: p' =>
      rcases List.cons_prefix_cons.mp hp with ⟨rfl, _⟩
      exact absurd (by simp : '\n' ∈ '\n' :: p') hnl
  | case4 c rest hc ih =>
    intro p hnl hp
    rw [tripleSub_cons_other hc] at hp
    match p with
    | [] => exact List.nil_prefix
    | x :: p' =>
      rcases List.cons_prefix_cons.mp hp with ⟨rfl, hp'⟩
      exact List.cons_prefix_cons.mpr
        ⟨rfl, ih p' (fun hm => hnl (by simp [hm])) hp'⟩

/-- A newline-free pattern occurring in the output of the blank-line pass
occurs in its input. -/
theorem tripleSub_infix_transfer :
    ∀ (l p : List Char), '\n' ∉ p → p <:+: tripleSub l → p <:+: l := by
  intro l
  induction l using tripleSub.induct with
  | case1 =>
    intro p _ hp
    rwa [tripleSub_nil] at hp
  | case2 rest n hs ih =>
    intro p hnl hp
    rw [tripleSub_cons_match hs] at hp
    have hnil : ∀ q : List Char, '\n' ∉ q → q <+: '\n' :: ('\n' :: tripleSub (rest.drop n)) → q = [] := by
      intro q hq hpre
      match q with
      | [] => rfl
      | x :: q' =>
        rcases List.cons_prefix_cons.mp hpre with ⟨rfl, _⟩
        exact absurd (by simp : '\n' ∈ '\n' :: q') hq
    rcases List.infix_cons_iff.mp hp with hpre | hinf
    · rw [hnil p hnl hpre]
      exact List.nil_infix
    · rcases List.infix_cons_iff.mp hinf with hpre | hinf
      · match p with
        | [] => exact List.nil_infix
        | x :: p' =>
          rcases List.cons_prefix_cons.mp hpre with ⟨rfl, _⟩
          exact absurd (by simp : '\n' ∈ '\n' :: p') hnl
      · have := ih p hnl hinf
        have hdrop : rest.drop n <:+: rest := (List.drop_suffix n rest).isInfix
        exact (this.trans hdrop).trans (List.suffix_cons '\n' rest).isInfix
  | case3 rest hs ih =>
    intro p hnl hp
    rw [tripleSub_cons_nl_none hs] at hp
    rcases List.infix_cons_iff.mp hp with hpre | hinf
    · match p with
      | [] => exact List.nil_infix
      | x :: p' =>
        rcases List.cons_prefix_cons.mp hpre with ⟨rfl, _⟩
        exact absurd (by simp : '\n' ∈ '\n' :: p') hnl
    · exact (ih p hnl hinf).trans (List.suffix_cons '\n' rest).isInfix
  | case4 c rest hc ih =>
    intro p hnl hp
    rw [tripleSub_cons_other hc] at hp
    rcases List.infix_cons_iff.mp hp with hpre | hinf
    · have : p <+: tripleSub (c :: rest) := by
        rw [tripleSub_cons_other hc]
        exact hpre
      have := tripleSub_prefix_transfer (c :: rest) p hnl this
      exact this.isInfix
    · exact (ih p hnl hinf).trans (List.suffix_cons c rest).isInfix

/-- The whole character-level pipeline of `preprocess_qa_text`. -/
def preprocessChars (x : List Char) : List Char :=
  tripleSub (subColon "大道".data (subColon "段".data (subColon "段永平".data
    (subColon "问".data (subColon "网友".data x)))))

theorem preprocess_qa_text_eq (s : String) :
    preprocess_qa_text s = if s = "" then "" else ⟨preprocessChars s.data⟩ := rfl

/-- One pass leaves a string on which every colon rule and the blank-line
rule are the identity, so the pipeline is idempotent at the character
level. -/
theorem preprocessChars_idem (x : List Char) :
    preprocessChars (preprocessChars x) = preprocessChars x := by
  unfold preprocessChars
  set a1 := subColon "网友".data x with ha1
  set a2 := subColon "问".data a1 with ha2
  set a3 := subColon "段永平".data a2 with ha3
  set a4 := subColon "段".data a3 with ha4
  set a5 := subColon "大道".data a4 with ha5
  set z := tripleSub a5 with hz
  have t2 : CharRel a2 a1 := ha2 ▸ subColon_charRel _ a1
  have t3 : CharRel a3 a2 := ha3 ▸ subColon_charRel _ a2
  have t4 : CharRel a4 a3 := ha4 ▸ subColon_charRel _ a3
  have t5 : CharRel a5 a4 := ha5 ▸ subColon_charRel _ a4
  have hrm1 : ¬ (("网友".data ++ [':']) <:+: a1) :=
    ha1 ▸ subColon_removes _ (by decide) (by decide) x
  have hrm2 : ¬ (("问".data ++ [':']) <:+: a2) :=
    ha2 ▸ subColon_removes _ (by decide) (by decide) a1
  have hrm3 : ¬ (("段永平".data ++ [':']) <:+: a3) :=
    ha3 ▸ subColon_removes _ (by decide) (by decide) a2
  have hrm4 : ¬ (("段".data ++ [':']) <:+: a4) :=
    ha4 ▸ subColon_removes _ (by decide) (by decide) a3
  have hrm5 : ¬ (("大道".data ++ [':']) <:+: a5) :=
    ha5 ▸ subColon_removes _ (by decide) (by decide) a4
  have no1 : ¬ (("网友".data ++ [':']) <:+: z) := fun h =>
    hrm1 (t2.infix_transfer _ (by decide) (t3.infix_transfer _ (by decide)
      (t4.infix_transfer _ (by decide) (t5.infix_transfer _ (by decide)
        (tripleSub_infix_transfer a5 _ (by decide) (hz ▸ h))))))
  have no2 : ¬ (("问".data ++ [':']) <:+: z) := fun h =>
    hrm2 (t3.infix_transfer _ (by decide)
      (t4.infix_transfer _ (by decide) (t5.infix_transfer _ (by decide)
        (tripleSub_infix_transfer a5 _ (by decide) (hz ▸ h)))))
  have no3 : ¬ (("段永平".data ++ [':']) <:+: z) := fun h =>
    hrm3 (t4.infix_transfer _ (by decide) (t5.infix_transfer _ (by decide)
      (tripleSub_infix_transfer a5 _ (by decide) (hz ▸ h))))
  have no4 : ¬ (("段".data ++ [':']) <:+: z) := fun h =>
    hrm4 (t5.infix_transfer _ (by decide)
      (tripleSub_infix_transfer a5 _ (by decide) (hz ▸ h)))
  have no5 : ¬ (("大道".data ++ [':']) <:+: z) := fun h =>
    hrm5 (tripleSub_infix_transfer a5 _ (by decide) (hz ▸ h))
  rw [subColon_eq_self _ z no1, subColon_eq_self _ z no2,
    subColon_eq_self _ z no3, subColon_eq_self _ z no4,
    subColon_eq_self _ z no5]
  exact tripleSub_eq_self z (hz ▸ tripleSub_noMatch a5)

/-- C10.  `preprocess_qa_text` is idempotent: preprocessing an already
preprocessed string changes nothing (the pipeline preprocesses the whole
document once and each block's content again before prompting). -/
theorem preprocess_qa_text_idempotent (s : String) :
    preprocess_qa_text (preprocess_qa_text s) = preprocess_qa_text s := by
  by_cases hs : s = ""
  · subst hs
    rfl
  · rw [preprocess_qa_text_eq s, if_neg hs]
    by_cases hy : (⟨preprocessChars s.data⟩ : String) = ""
    · rw [preprocess_qa_text_eq, if_pos hy]
      exact hy.symm
    · rw [preprocess_qa_text_eq, if_neg hy]
      exact congrArg String.mk (preprocessChars_idem s.data)
